import Mathlib

/-!
Shallow embedding of the core of the r-synced repository
(src/main.rs and src/utils.rs): the rsync progress-line matcher, the
dry-run statistics matcher, the stream-pump event model, and the
supervisor's run-click handling.  Machine integers are modelled as `Nat`
with the explicit bounds checked by Rust's `str::parse` (`u64` / `u8`);
character classes model the ASCII fragment of the regex classes, which
covers every character the grammars can accept.  The regular expressions
are embedded as deterministic matchers that reproduce the leftmost /
greedy-with-backtracking semantics of the `regex` crate on these
particular patterns.
-/

namespace RSynced

/-- ASCII model of the whitespace class used by `str::trim` and the regex class. -/
def wsChar (c : Char) : Bool :=
  c = ' ' || c = '\t' || c = '\n' || c = '\r' || c = '\x0b' || c = '\x0c'

/-- The regex character class of the bytes token and of the stats count
tokens: a digit or a dot (the thousands separator the code strips). -/
def bytesChar (c : Char) : Bool := c.isDigit || c = '.'

/-- The regex character class opening the speed token: a digit or a comma. -/
def speedNumChar (c : Char) : Bool := c.isDigit || c = ','

/-- ASCII model of the regex word class: alphanumeric or underscore. -/
def wordChar (c : Char) : Bool := c.isAlphanum || c = '_'

/-- Maximal run of characters satisfying `p`: greedy matching of a starred
class, returning the run and the remainder. -/
def takeRun (p : Char → Bool) : List Char → List Char × List Char
  | [] => ([], [])
  | c :: cs =>
    if p c then
      let r := takeRun p cs
      (c :: r.1, r.2)
    else ([], c :: cs)

/-- Rust `str::trim` on both ends (ASCII model). -/
def rsTrim (l : List Char) : List Char :=
  ((l.dropWhile (fun c => wsChar c)).reverse.dropWhile (fun c => wsChar c)).reverse

/-- Split on every character satisfying `p`, keeping empty fragments —
the behaviour of Rust's `str::split` with a one-character pattern. -/
def splitOnPred (p : Char → Bool) : List Char → List (List Char)
  | [] => [[]]
  | c :: cs =>
    if p c then [] :: splitOnPred p cs
    else
      match splitOnPred p cs with
      | [] => [[c]]
      | t :: ts => (c :: t) :: ts

/-- Rust `str::split` on a single-character separator. -/
def splitOnChar (sep : Char) (l : List Char) : List (List Char) :=
  splitOnPred (fun c => c = sep) l

/-- Consume an expected literal, as the regex does for literal fragments. -/
def dropLit : List Char → List Char → Option (List Char)
  | [], cs => some cs
  | _ :: _, [] => none
  | l :: ls, c :: cs => if c = l then dropLit ls cs else none

/-- Value of a digit string (the value `str::parse` computes when every
character is a decimal digit). -/
def digitsVal (l : List Char) : Nat :=
  l.foldl (fun acc c => acc * 10 + (c.toNat - 48)) 0

/-- Rust `str::parse::<u64>` restricted to the strings reachable here:
succeeds exactly on a non-empty all-digit string whose value fits in 64 bits. -/
def parseU64 (l : List Char) : Option Nat :=
  if l ≠ [] ∧ l.all Char.isDigit = true ∧ digitsVal l < 2 ^ 64 then
    some (digitsVal l)
  else none

/-- Rust `str::parse::<u8>`: non-empty, all digits, value at most 255. -/
def parseU8 (l : List Char) : Option Nat :=
  if l ≠ [] ∧ l.all Char.isDigit = true ∧ digitsVal l ≤ 255 then
    some (digitsVal l)
  else none

/-- The speed-token fragment of the progress regex: a comma-grouped digit
run, a word run, a slash, a word run.  The digit/word classes overlap, so
this is the one place the regex engine backtracks: when no word character
follows the maximal digit-and-comma run, the engine gives trailing digits
back so the word run can match them.  All give-back amounts reach the same
end position, so the matcher is a function. -/
def matchSpeed (cs : List Char) : Option (List Char × List Char) :=
  let rPair := takeRun speedNumChar cs
  if rPair.1.isEmpty then none
  else
    let w1Pair := takeRun wordChar rPair.2
    if w1Pair.1.isEmpty then
      if 2 ≤ rPair.1.length ∧ (rPair.1.getLastD ' ').isDigit = true then
        match rPair.2 with
        | '/' :: r3 =>
          let w2Pair := takeRun wordChar r3
          if w2Pair.1.isEmpty then none
          else some (rPair.1 ++ '/' :: w2Pair.1, w2Pair.2)
        | _ => none
      else none
    else
      match w1Pair.2 with
      | '/' :: r3 =>
        let w2Pair := takeRun wordChar r3
        if w2Pair.1.isEmpty then none
        else some (rPair.1 ++ w1Pair.1 ++ '/' :: w2Pair.1, w2Pair.2)
      | _ => none

/-- The clock fragment with a fixed hour run already consumed: a colon,
two digit minutes, a colon, two digit seconds; nothing after it is
required (the pattern has no end anchor). -/
def matchClockTail (h : List Char) (cs : List Char) : Option (List Char) :=
  match cs with
  | ':' :: m1 :: m2 :: ':' :: s1 :: s2 :: _ =>
    if m1.isDigit && m2.isDigit && s1.isDigit && s2.isDigit then
      some (h ++ ':' :: m1 :: m2 :: ':' :: s1 :: s2 :: [])
    else none
  | _ => none

/-- The clock fragment of the progress regex: one or two digit hours
(greedy, so two digits are tried first), then minutes and seconds. -/
def matchClock (cs : List Char) : Option (List Char) :=
  match cs with
  | [] => none
  | a :: rest =>
    if a.isDigit then
      match rest with
      | [] => none
      | b :: rest2 =>
        if b.isDigit then
          match matchClockTail [a, b] rest2 with
          | some g => some g
          | none => matchClockTail [a] rest
        else matchClockTail [a] rest
    else none

/-- The full progress pattern, anchored at the start of the trimmed line
and open at the end: bytes run, whitespace, digit run, percent sign,
whitespace, speed token, whitespace, clock.  Returns the four captures. -/
def matchProgressLine (cs : List Char) :
    Option (List Char × List Char × List Char × List Char) :=
  let g1Pair := takeRun bytesChar cs
  if g1Pair.1.isEmpty then none
  else
    let w1Pair := takeRun wsChar g1Pair.2
    if w1Pair.1.isEmpty then none
    else
      let g2Pair := takeRun (fun c => c.isDigit) w1Pair.2
      if g2Pair.1.isEmpty then none
      else
        match g2Pair.2 with
        | '%' :: r4 =>
          let w2Pair := takeRun wsChar r4
          if w2Pair.1.isEmpty then none
          else
            match matchSpeed w2Pair.2 with
            | none => none
            | some (g3, r6) =>
              let w3Pair := takeRun wsChar r6
              if w3Pair.1.isEmpty then none
              else
                match matchClock w3Pair.2 with
                | none => none
                | some g4 => some (g1Pair.1, g2Pair.1, g3, g4)
        | _ => none

/-- The record produced per recognized progress line (struct
`RsyncProgress` of src/utils.rs); the `u64` and `u8` fields are `Nat`
whose bounds are enforced by the parse functions. -/
structure RsyncProgress where
  bytes_transferred : Nat
  percentage : Nat
  speed : String
  estimated_time : String
deriving DecidableEq, Repr

/-- `parse_rsync_progress` of src/utils.rs: trim the line, match the
progress pattern, strip dots from the bytes capture and parse it as
`u64`, parse the percentage as `u8`. -/
def parse_rsync_progress (line : String) : Option RsyncProgress :=
  match matchProgressLine (rsTrim line.data) with
  | none => none
  | some (g1, g2, g3, g4) =>
    match parseU64 (g1.filter (fun c => c ≠ '.')) with
    | none => none
    | some bytes =>
      match parseU8 g2 with
      | none => none
      | some pct =>
        some { bytes_transferred := bytes, percentage := pct,
               speed := g3.asString, estimated_time := g4.asString }

/-! ## Summary stats parser (`parse_rsync_stats` of src/main.rs)

The `HashMap<String, String>` is modelled as an association list onto
which each `insert` conses a new binding; `lookupStat` reads the newest
binding, which is exactly the map's observable behaviour (a later
`insert` overwrites an earlier one). -/

/-- Newest-first association-list view of the stats `HashMap`. -/
def lookupStat (m : List (String × String)) (k : String) : Option String :=
  (m.find? (fun p => p.1 == k)).map (fun p => p.2)

/-- The optional link group of the number-of-files pattern: a comma,
optional whitespace, the literal, optional whitespace, a digit-or-dot run. -/
def matchLink (cs : List Char) : Option (List Char × List Char) :=
  match cs with
  | ',' :: r =>
    let r2 := (takeRun wsChar r).2
    match dropLit ['l', 'i', 'n', 'k', ':'] r2 with
    | none => none
    | some r3 =>
      let r4 := (takeRun wsChar r3).2
      let g4Pair := takeRun bytesChar r4
      if g4Pair.1.isEmpty then none else some (g4Pair.1, g4Pair.2)
  | _ => none

/-- The number-of-files pattern attempted at one start position: total
run, whitespace, open paren, the reg / dir fields, the optional link
group, optional whitespace, close paren. -/
def matchNumFilesAt (cs : List Char) :
    Option (List Char × List Char × List Char × Option (List Char)) :=
  let g1Pair := takeRun bytesChar cs
  if g1Pair.1.isEmpty then none
  else
    let w1Pair := takeRun wsChar g1Pair.2
    if w1Pair.1.isEmpty then none
    else
      match dropLit ['(', 'r', 'e', 'g', ':'] w1Pair.2 with
      | none => none
      | some r3 =>
        let r4 := (takeRun wsChar r3).2
        let g2Pair := takeRun bytesChar r4
        if g2Pair.1.isEmpty then none
        else
          match g2Pair.2 with
          | ',' :: r5 =>
            let r6 := (takeRun wsChar r5).2
            match dropLit ['d', 'i', 'r', ':'] r6 with
            | none => none
            | some r7 =>
              let r8 := (takeRun wsChar r7).2
              let g3Pair := takeRun bytesChar r8
              if g3Pair.1.isEmpty then none
              else
                let linkRes := matchLink g3Pair.2
                let g4 := linkRes.map (fun p => p.1)
                let r9 := (linkRes.map (fun p => p.2)).getD g3Pair.2
                let r10 := (takeRun wsChar r9).2
                match r10 with
                | ')' :: _ => some (g1Pair.1, g2Pair.1, g3Pair.1, g4)
                | _ => none
          | _ => none

/-- Unanchored leftmost search for the number-of-files pattern, as the
regex crate performs on `RE_NUM_FILES.captures(&value)`. -/
def searchNumFiles : List Char →
    Option (List Char × List Char × List Char × Option (List Char))
  | [] => none
  | c :: cs =>
    match matchNumFilesAt (c :: cs) with
    | some r => some r
    | none => searchNumFiles cs

/-- The greedy `\((.*)\)` tail of the total-size pattern: everything up
to the last closing paren of the remainder. -/
def splitLastParen (cs : List Char) : Option (List Char) :=
  match cs.reverse.dropWhile (fun c => c ≠ ')') with
  | ')' :: restRev => some restRev.reverse
  | _ => none

/-- The total-size pattern attempted at one start position. -/
def matchTotalAt (cs : List Char) :
    Option (List Char × List Char × List Char) :=
  match dropLit "total size is ".data cs with
  | none => none
  | some r1 =>
    let g1Pair := takeRun bytesChar r1
    if g1Pair.1.isEmpty then none
    else
      let w1Pair := takeRun wsChar g1Pair.2
      if w1Pair.1.isEmpty then none
      else
        match dropLit "speedup is ".data w1Pair.2 with
        | none => none
        | some r2 =>
          let g2Pair := takeRun (fun c => bytesChar c || c = ',') r2
          if g2Pair.1.isEmpty then none
          else
            let w2Pair := takeRun wsChar g2Pair.2
            if w2Pair.1.isEmpty then none
            else
              match w2Pair.2 with
              | '(' :: r3 =>
                match splitLastParen r3 with
                | none => none
                | some g3 => some (g1Pair.1, g2Pair.1, g3)
              | _ => none

/-- Unanchored leftmost search for the total-size pattern. -/
def searchTotal : List Char → Option (List Char × List Char × List Char)
  | [] => none
  | c :: cs =>
    match matchTotalAt (c :: cs) with
    | some r => some r
    | none => searchTotal cs

/-- The lazy `^(.+?):\s*(.*)$` split: the shortest non-empty prefix up to
a colon, so the key ends at the first colon at index at least one. -/
def splitColon : List Char → Option (List Char × List Char)
  | [] => none
  | ':' :: rest => some ([], rest)
  | c :: rest => (splitColon rest).map (fun kv => (c :: kv.1, kv.2))

/-- The key/value split of one stats line (the first character always
belongs to the key, since the lazy group needs at least one character). -/
def splitKV : List Char → Option (List Char × List Char)
  | [] => none
  | c :: rest => (splitColon rest).map (fun kv => (c :: kv.1, kv.2))

/-- The bindings one stats line inserts, per the body of the loop in
`parse_rsync_stats`: a key/value line is stored verbatim, except that a
"Number of files" value is re-matched and stored as four derived keys
(the links capture defaulting to the empty string when the optional
group is absent), and a colon-free line is tried against the total-size
pattern.  A line matching nothing inserts nothing. -/
def lineInserts (line : String) : List (String × String) :=
  let t := rsTrim line.data
  if t.isEmpty then []
  else
    match splitKV t with
    | some kv =>
      let key := (rsTrim kv.1).asString
      let value := (rsTrim kv.2).asString
      if key = "Number of files" then
        match searchNumFiles value.data with
        | some (g1, g2, g3, g4) =>
          [("Number of files (total)", g1.asString),
           ("Number of files (regular)", g2.asString),
           ("Number of files (directories)", g3.asString),
           ("Number of files (links)", ((g4.getD []).asString))]
        | none => []
      else [(key, value)]
    | none =>
      match searchTotal t with
      | some (g1, g2, g3) =>
        [("Total size (summary)", g1.asString),
         ("Speedup", g2.asString),
         ("Run type", g3.asString)]
      | none => []

/-- One iteration of the stats loop: the line's bindings shadow the
accumulated map (the `HashMap` inserts of the source). -/
def statLine (m : List (String × String)) (line : String) :
    List (String × String) :=
  lineInserts line ++ m

/-- The stats loop over an explicit line list. -/
def statsOfLines (ls : List String) : List (String × String) :=
  ls.foldl statLine []

/-- `parse_rsync_stats` of src/main.rs over the captured text block,
iterating the newline-separated lines. -/
def parse_rsync_stats (s : String) : List (String × String) :=
  statsOfLines ((splitOnChar '\n' s.data).map List.asString)

/-! ## Supervisor: the run-click handling of `AppState::update` -/

/-- The dot-stripping `replace(".", "")` applied to the regular-file
count before parsing it. -/
def stripDots (s : String) : List Char :=
  s.data.filter (fun c => c ≠ '.')

/-- Substring test, Rust `str::contains` with a literal pattern. -/
def containsSub (needle : List Char) : List Char → Bool
  | [] => needle.isEmpty
  | c :: cs => needle.isPrefixOf (c :: cs) || containsSub needle cs

/-- The literal permission signature the supervisor looks for. -/
def pdSig : String := "Permission denied"

/-- The actionable authentication diagnostic. -/
def sshMsg : String :=
  "Access denied when connecting to the server via SSH. Please check if your SSH key is configured."

/-- The sizing-failure diagnostic. -/
def sizeMsg : String := "Could not determine the file count for the transfer.\n"

/-- Outcome of one run click, given the dry run's captured stdout and
stderr.  `stopped` is a `return` before the real run is spawned,
`spawned` records the error log accumulated so far and the `files_count`
handed to `run_rsync`, and `panicked` is the `unwrap()` abort on the
count parse. -/
inductive RunOutcome where
  | stopped (errorLogs : String)
  | panicked
  | spawned (errorLogs : String) (filesCount : Nat)
deriving DecidableEq, Repr

/-- The body of the run-click branch of `AppState::update` (src/main.rs):
surface non-empty dry-run stderr, stop only when the permission signature
is present, otherwise derive the regular-file count from the stats and
spawn the real run, aborting if the count fails to parse as `u64` after
stripping dots. -/
def handleRunClick (dryStdout dryStderr : String) : RunOutcome :=
  let hasErr : Bool := !(rsTrim dryStderr.data).isEmpty
  let el : String := if hasErr then dryStderr ++ "\n" else ""
  if hasErr && containsSub pdSig.data dryStderr.data then
    .stopped (el ++ (sshMsg ++ "\n"))
  else
    match lookupStat (parse_rsync_stats dryStdout) "Number of files (regular)" with
    | none => .stopped (el ++ (sizeMsg ++ (dryStdout ++ "\n")))
    | some nf =>
      match parseU64 (stripDots nf) with
      | none => .panicked
      | some n => .spawned el n

/-! ## Stream pumps and the channel protocol (`run_rsync` of src/main.rs)

Events are modelled per line after the carriage-return / newline
splitting the pump performs.  The stdout pump is a fold carrying the
file counter; the stderr pump maps every line to an error event.  A
channel consumption order is any merge of the two pumps' FIFO
sequences. -/

/-- The value of an `f32` fraction as the program computes it: NaN and
the signed infinities are explicit, finite values carry the exact
rational of the division.  The IEEE conversions and the division round
a finite exact value monotonically (round-to-nearest is a monotone map
and both events of a job divide by the same fixed denominator), so
order facts about the `finite` payloads transfer to the floats the
program holds; the error values below do not arise from any finite
computation and are produced exactly where IEEE produces them. -/
inductive FloatVal where
  | nan
  | posInf
  | negInf
  | finite (q : ℚ)
deriving DecidableEq

/-- IEEE comparison `<=` on the modelled values: any comparison with
NaN is false, the infinities bound the finite values, and finite values
compare as their rationals. -/
def fle : FloatVal → FloatVal → Bool
  | .nan, _ => false
  | _, .nan => false
  | .negInf, _ => true
  | _, .negInf => false
  | .posInf, .posInf => true
  | .posInf, .finite _ => false
  | .finite _, .posInf => true
  | .finite a, .finite b => decide (a ≤ b)

/-- Two's-complement wrap into the `i32` range: the value the source's
`count` (an `i32` starting at 0 and bumped with `count += 1`) holds
after `n` increments under release-mode wrapping arithmetic (a debug
build would abort at the 2^31-th increment instead). -/
def wrap32 (n : Int) : Int :=
  (n + 2 ^ 31) % 2 ^ 32 - 2 ^ 31

/-- IEEE `f32` division `n as f32 / d as f32` of an integer by an
unsigned count: a zero denominator yields NaN (for a zero numerator) or
a signed infinity; a nonzero denominator yields the finite exact
quotient (see `FloatVal` on why exactness is faithful for order). -/
def divF32 (n : Int) (d : Nat) : FloatVal :=
  if d = 0 then
    if n = 0 then .nan
    else if 0 < n then .posInf
    else .negInf
  else .finite ((n : ℚ) / (d : ℚ))

/-- The `StateMessage` enum of src/main.rs with its payload structs
inlined.  `progress` carries `total_progress` and `progress` (the two
`f32` fractions) plus the speed and time strings and the byte count. -/
inductive StateMessage where
  | progress (total_progress : FloatVal) (progress : FloatVal)
      (speed : String) (time : String) (bytes_sent : Nat)
  | nextFile (line : String)
  | finished
  | error (line : String)
deriving DecidableEq

/-- The file-event test of the stdout pump: the line's first character is
the sent marker or the received marker. -/
def isFileEventLine (line : String) : Bool :=
  match line.data with
  | [] => false
  | c :: _ => c = '>' || c = '<'

/-- The payload extraction `line.split(" ").last().unwrap_or_default()`:
the last token of a split on the single space character. -/
def lastToken (line : String) : String :=
  ((splitOnChar ' ' line.data).getLastD []).asString

/-- The messages one stdout line produces and the updated file counter:
a progress event first (with the counter before any increment), then a
file event.  `count` is the abstract number of file events so far; the
`i32` the source holds after that many wrapping increments is
`wrap32 count`, and the emitted `total_progress` is its `f32` division
by the fixed `files_count`. -/
def lineMsgs (files_count : Nat) (count : Nat) (line : String) :
    List StateMessage × Nat :=
  let pm : List StateMessage :=
    match parse_rsync_progress line with
    | some pr =>
      [.progress (divF32 (wrap32 (count : Int)) files_count)
        (divF32 (pr.percentage : Int) 100) pr.speed pr.estimated_time
        pr.bytes_transferred]
    | none => []
  if isFileEventLine line then
    (pm ++ [.nextFile (lastToken line)], count + 1)
  else (pm, count)

/-- The stdout pump's event sequence over its lines, from a given counter. -/
def pumpLines (files_count : Nat) (count : Nat) : List String → List StateMessage
  | [] => []
  | l :: ls =>
    (lineMsgs files_count count l).1 ++
      pumpLines files_count (lineMsgs files_count count l).2 ls

/-- The complete stdout-pump sequence of a job: the per-line events and
then the single completion sentinel the pump sends at end-of-stream. -/
def stdoutEvents (files_count : Nat) (ls : List String) : List StateMessage :=
  pumpLines files_count 0 ls ++ [.finished]

/-- The stderr pump: every line becomes an error event, in order. -/
def stderrEvents (ls : List String) : List StateMessage :=
  ls.map .error

/-- An interleaving of two FIFO sequences into one consumption order:
the channel guarantees per-producer order and nothing across producers. -/
inductive Merge : List StateMessage → List StateMessage → List StateMessage → Prop
  | nil : Merge [] [] []
  | left {x xs ys zs} : Merge xs ys zs → Merge (x :: xs) ys (x :: zs)
  | right {y xs ys zs} : Merge xs ys zs → Merge xs (y :: ys) (y :: zs)

/-- The `total_progress` payloads of the progress events of a sequence. -/
def progressVals (ms : List StateMessage) : List FloatVal :=
  ms.filterMap fun m =>
    match m with
    | .progress tp _ _ _ _ => some tp
    | _ => none

/-- Completion test on a message. -/
def isFinishedMsg : StateMessage → Bool
  | .finished => true
  | _ => false

/-- Error test on a message. -/
def isErrorMsg : StateMessage → Bool
  | .error _ => true
  | _ => false

/-! ## Aggregator (the message loop of `AppState::update`) -/

/-- The progress fields of the snapshot (struct `Progress`). -/
structure ProgressSnap where
  total_progress : FloatVal
  progress : FloatVal
  speed : String
  time : String
  bytes_sent : Nat
deriving DecidableEq

/-- The aggregator-owned part of `AppState`. -/
structure AppSnapshot where
  logs : String
  error_logs : String
  current_progress : ProgressSnap
  is_finished : Bool
deriving DecidableEq

/-- One fold step of the aggregator: progress replaces the snapshot,
a file event appends its payload to the log only when non-empty, an
error appends to the error log, completion sets the flag. -/
def applyMsg (s : AppSnapshot) (m : StateMessage) : AppSnapshot :=
  match m with
  | .progress tp p sp t b =>
    { s with current_progress := ⟨tp, p, sp, t, b⟩ }
  | .nextFile l =>
    if l.isEmpty then s else { s with logs := s.logs ++ (l ++ "\n") }
  | .finished => { s with is_finished := true }
  | .error l => { s with error_logs := s.error_logs ++ (l ++ "\n") }

/-! ## Definitions taken from the specification's words

These are deliberately NOT translated from the source: they state what
the specification claims, to be compared with the source-derived
definitions above. -/

/-- Modelled from the spec: the final whitespace-delimited token, i.e.
the last fragment when the line is split at every whitespace character. -/
def wsLastToken (s : String) : String :=
  ((splitOnPred wsChar s.data).getLastD []).asString

/-- The speed-token grammar as the spec words it over the source pattern:
a digit-or-comma run, a word run, a slash, a word run. -/
def SpeedShape (g : List Char) : Prop :=
  ∃ d w1 w2 : List Char,
    g = d ++ w1 ++ '/' :: w2 ∧
    d ≠ [] ∧ (∀ c ∈ d, speedNumChar c = true) ∧
    w1 ≠ [] ∧ (∀ c ∈ w1, wordChar c = true) ∧
    w2 ≠ [] ∧ (∀ c ∈ w2, wordChar c = true)

/-- The timestamp grammar: one or two digit hours, two digit minutes,
two digit seconds. -/
def ClockShape (g : List Char) : Prop :=
  ∃ h : List Char, ∃ m1 m2 s1 s2 : Char,
    g = h ++ ':' :: m1 :: m2 :: ':' :: s1 :: s2 :: [] ∧
    h ≠ [] ∧ h.length ≤ 2 ∧ (∀ c ∈ h, c.isDigit = true) ∧
    m1.isDigit = true ∧ m2.isDigit = true ∧
    s1.isDigit = true ∧ s2.isDigit = true

/-- The progress-line grammar stated declaratively over the trimmed
line: bytes run, whitespace, percentage digits, percent sign,
whitespace, speed token, whitespace, timestamp — followed by arbitrary
trailing content, since the source pattern is anchored only at the
start. -/
def ProgressShape (line : String) : Prop :=
  ∃ b w1 p w2 s w3 t rest : List Char,
    rsTrim line.data =
      b ++ w1 ++ p ++ '%' :: (w2 ++ s ++ w3 ++ t ++ rest) ∧
    b ≠ [] ∧ (∀ c ∈ b, bytesChar c = true) ∧
    w1 ≠ [] ∧ (∀ c ∈ w1, wsChar c = true) ∧
    p ≠ [] ∧ (∀ c ∈ p, c.isDigit = true) ∧
    w2 ≠ [] ∧ (∀ c ∈ w2, wsChar c = true) ∧
    SpeedShape s ∧
    w3 ≠ [] ∧ (∀ c ∈ w3, wsChar c = true) ∧
    ClockShape t

/-! ## Helper lemmas -/

theorem takeRun_append (p : Char → Bool) (cs : List Char) :
    (takeRun p cs).1 ++ (takeRun p cs).2 = cs := by
  induction cs with
  | nil => rfl
  | cons c cs ih =>
    simp only [takeRun]
    by_cases h : p c = true
    · simp [h, ih]
    · simp [h]

theorem takeRun_sat (p : Char → Bool) (cs : List Char) :
    ∀ c ∈ (takeRun p cs).1, p c = true := by
  induction cs with
  | nil => intro c hc; cases hc
  | cons a cs ih =>
    simp only [takeRun]
    by_cases h : p a = true
    · simp only [h, if_pos]
      intro c hc
      rcases List.mem_cons.mp hc with rfl | hc
      · exact h
      · exact ih c hc
    · simp [h]

theorem digit_wordChar {c : Char} (h : c.isDigit = true) : wordChar c = true := by
  simp [wordChar, Char.isAlphanum, h]

theorem matchSpeed_shape {cs g rest : List Char}
    (hm : matchSpeed cs = some (g, rest)) : cs = g ++ rest ∧ SpeedShape g := by
  simp only [matchSpeed] at hm
  obtain ⟨R, r1, hRdef⟩ : ∃ R r1, takeRun speedNumChar cs = (R, r1) := ⟨_, _, rfl⟩
  have hRapp : R ++ r1 = cs := by
    have := takeRun_append speedNumChar cs; rwa [hRdef] at this
  have hRsat : ∀ c ∈ R, speedNumChar c = true := by
    have := takeRun_sat speedNumChar cs; rwa [hRdef] at this
  rw [hRdef] at hm
  simp only at hm
  obtain ⟨W1, r2, hW1def⟩ : ∃ W1 r2, takeRun wordChar r1 = (W1, r2) := ⟨_, _, rfl⟩
  have hW1app : W1 ++ r2 = r1 := by
    have := takeRun_append wordChar r1; rwa [hW1def] at this
  have hW1sat : ∀ c ∈ W1, wordChar c = true := by
    have := takeRun_sat wordChar r1; rwa [hW1def] at this
  rw [hW1def] at hm
  simp only at hm
  split at hm
  · exact absurd hm (by simp)
  · next hRne =>
    have hRne' : R ≠ [] := by simpa using hRne
    split at hm
    · -- W1 empty: the give-back branch
      next hW1e =>
      have hW1e' : W1 = [] := by simpa using hW1e
      split at hm
      · next hback =>
        split at hm
        · rename_i r3
          obtain ⟨W2, r4, hW2def⟩ : ∃ W2 r4, takeRun wordChar r3 = (W2, r4) := ⟨_, _, rfl⟩
          have hW2app : W2 ++ r4 = r3 := by
            have := takeRun_append wordChar r3; rwa [hW2def] at this
          have hW2sat : ∀ c ∈ W2, wordChar c = true := by
            have := takeRun_sat wordChar r3; rwa [hW2def] at this
          rw [hW2def] at hm
          simp only at hm
          split at hm
          · exact absurd hm (by simp)
          · next hW2ne =>
            have hW2ne' : W2 ≠ [] := by simpa using hW2ne
            injection hm with hm'
            injection hm' with hg hrest
            subst hg; subst hrest
            refine ⟨?_, ?_⟩
            · rw [← hRapp, ← hW2app]; simp
            · rcases List.eq_nil_or_concat R with rfl | ⟨L, b, rfl⟩
              · exact absurd rfl hRne'
              · have hb : b.isDigit = true := by
                  have := hback.2
                  simpa using this
                have hLne : L ≠ [] := by
                  have := hback.1
                  simp at this
                  intro hL
                  rw [hL] at this
                  simp at this
                refine ⟨L, [b], W2, by simp, hLne, ?_, by simp, ?_, hW2ne', hW2sat⟩
                · intro c hc; exact hRsat c (by simp [hc])
                · intro c hc
                  rcases List.mem_singleton.mp hc with rfl
                  exact digit_wordChar hb
        · exact absurd hm (by simp)
      · exact absurd hm (by simp)
    · next hW1ne =>
      have hW1ne' : W1 ≠ [] := by simpa using hW1ne
      split at hm
      · rename_i r3
        obtain ⟨W2, r4, hW2def⟩ : ∃ W2 r4, takeRun wordChar r3 = (W2, r4) := ⟨_, _, rfl⟩
        have hW2app : W2 ++ r4 = r3 := by
          have := takeRun_append wordChar r3; rwa [hW2def] at this
        have hW2sat : ∀ c ∈ W2, wordChar c = true := by
          have := takeRun_sat wordChar r3; rwa [hW2def] at this
        rw [hW2def] at hm
        simp only at hm
        split at hm
        · exact absurd hm (by simp)
        · next hW2ne =>
          have hW2ne' : W2 ≠ [] := by simpa using hW2ne
          injection hm with hm'
          injection hm' with hg hrest
          subst hg; subst hrest
          refine ⟨?_, R, W1, W2, rfl, hRne', hRsat, hW1ne', hW1sat, hW2ne', hW2sat⟩
          rw [← hRapp, ← hW1app, ← hW2app]; simp
      · exact absurd hm (by simp)

theorem matchClockTail_shape {h cs g : List Char}
    (hm : matchClockTail h cs = some g) :
    ∃ m1 m2 s1 s2 rest, cs = ':' :: m1 :: m2 :: ':' :: s1 :: s2 :: rest ∧
      g = h ++ ':' :: m1 :: m2 :: ':' :: s1 :: s2 :: [] ∧
      m1.isDigit = true ∧ m2.isDigit = true ∧ s1.isDigit = true ∧ s2.isDigit = true := by
  unfold matchClockTail at hm
  split at hm
  · rename_i m1 m2 s1 s2 tail
    split at hm
    · rename_i hd
      injection hm with hg
      subst hg
      simp only [Bool.and_eq_true] at hd
      exact ⟨m1, m2, s1, s2, tail, rfl, rfl, hd.1.1.1, hd.1.1.2, hd.1.2, hd.2⟩
    · exact absurd hm (by simp)
  · exact absurd hm (by simp)

theorem matchClock_shape {cs g : List Char} (hm : matchClock cs = some g) :
    (∃ rest, cs = g ++ rest) ∧ ClockShape g := by
  unfold matchClock at hm
  split at hm
  · exact absurd hm (by simp)
  · rename_i a rest
    split at hm
    · rename_i ha
      split at hm
      · exact absurd hm (by simp)
      · rename_i b rest2
        split at hm
        · rename_i hb
          split at hm
          · rename_i g2 htail
            injection hm with hg
            subst hg
            obtain ⟨m1, m2, s1, s2, r, hcs, hg2, hm1, hm2, hs1, hs2⟩ :=
              matchClockTail_shape htail
            subst hcs; subst hg2
            refine ⟨⟨r, by simp⟩, [a, b], m1, m2, s1, s2, by simp, by simp, by simp, ?_, hm1, hm2, hs1, hs2⟩
            intro c hc
            rcases List.mem_cons.mp hc with rfl | hc
            · exact ha
            · rcases List.mem_singleton.mp hc with rfl
              exact hb
          · rename_i htail2
            obtain ⟨m1, m2, s1, s2, r, hcs, hg2, hm1, hm2, hs1, hs2⟩ :=
              matchClockTail_shape hm
            subst hg2
            refine ⟨⟨r, by simp [hcs]⟩, [a], m1, m2, s1, s2, by simp, by simp, by simp, ?_, hm1, hm2, hs1, hs2⟩
            intro c hc
            rcases List.mem_singleton.mp hc with rfl
            exact ha
        · obtain ⟨m1, m2, s1, s2, r, hcs, hg2, hm1, hm2, hs1, hs2⟩ :=
            matchClockTail_shape hm
          subst hg2
          refine ⟨⟨r, by simp [hcs]⟩, [a], m1, m2, s1, s2, by simp, by simp, by simp, ?_, hm1, hm2, hs1, hs2⟩
          intro c hc
          rcases List.mem_singleton.mp hc with rfl
          exact ha
    · exact absurd hm (by simp)


theorem matchProgressLine_shape {cs g1 g2 g3 g4 : List Char}
    (hm : matchProgressLine cs = some (g1, g2, g3, g4)) :
    ∃ w1 w2 w3 rest, cs = g1 ++ w1 ++ g2 ++ '%' :: (w2 ++ g3 ++ w3 ++ g4 ++ rest) ∧
      g1 ≠ [] ∧ (∀ c ∈ g1, bytesChar c = true) ∧
      w1 ≠ [] ∧ (∀ c ∈ w1, wsChar c = true) ∧
      g2 ≠ [] ∧ (∀ c ∈ g2, Char.isDigit c = true) ∧
      w2 ≠ [] ∧ (∀ c ∈ w2, wsChar c = true) ∧
      SpeedShape g3 ∧
      w3 ≠ [] ∧ (∀ c ∈ w3, wsChar c = true) ∧
      ClockShape g4 := by
  simp only [matchProgressLine] at hm
  obtain ⟨B, r1, hBdef⟩ : ∃ B r1, takeRun bytesChar cs = (B, r1) := ⟨_, _, rfl⟩
  have hBapp : B ++ r1 = cs := by
    have := takeRun_append bytesChar cs; rwa [hBdef] at this
  have hBsat : ∀ c ∈ B, bytesChar c = true := by
    have := takeRun_sat bytesChar cs; rwa [hBdef] at this
  rw [hBdef] at hm
  simp only at hm
  obtain ⟨W1, r2, hW1def⟩ : ∃ W1 r2, takeRun wsChar r1 = (W1, r2) := ⟨_, _, rfl⟩
  have hW1app : W1 ++ r2 = r1 := by
    have := takeRun_append wsChar r1; rwa [hW1def] at this
  have hW1sat : ∀ c ∈ W1, wsChar c = true := by
    have := takeRun_sat wsChar r1; rwa [hW1def] at this
  rw [hW1def] at hm
  simp only at hm
  obtain ⟨P, r3, hPdef⟩ : ∃ P r3, takeRun (fun c => c.isDigit) r2 = (P, r3) := ⟨_, _, rfl⟩
  have hPapp : P ++ r3 = r2 := by
    have := takeRun_append (fun c => c.isDigit) r2; rwa [hPdef] at this
  have hPsat : ∀ c ∈ P, c.isDigit = true := by
    have := takeRun_sat (fun c => c.isDigit) r2; rwa [hPdef] at this
  rw [hPdef] at hm
  simp only at hm
  split at hm
  · exact absurd hm (by simp)
  · rename_i hBne
    split at hm
    · exact absurd hm (by simp)
    · rename_i hW1ne
      split at hm
      · exact absurd hm (by simp)
      · rename_i hPne
        split at hm
        · rename_i r4
          obtain ⟨W2, r5, hW2def⟩ : ∃ W2 r5, takeRun wsChar r4 = (W2, r5) := ⟨_, _, rfl⟩
          have hW2app : W2 ++ r5 = r4 := by
            have := takeRun_append wsChar r4; rwa [hW2def] at this
          have hW2sat : ∀ c ∈ W2, wsChar c = true := by
            have := takeRun_sat wsChar r4; rwa [hW2def] at this
          rw [hW2def] at hm
          simp only at hm
          split at hm
          · exact absurd hm (by simp)
          · rename_i hW2ne
            split at hm
            · exact absurd hm (by simp)
            · rename_i S r6 hSdef
              obtain ⟨W3, r7, hW3def⟩ : ∃ W3 r7, takeRun wsChar r6 = (W3, r7) := ⟨_, _, rfl⟩
              have hW3app : W3 ++ r7 = r6 := by
                have := takeRun_append wsChar r6; rwa [hW3def] at this
              have hW3sat : ∀ c ∈ W3, wsChar c = true := by
                have := takeRun_sat wsChar r6; rwa [hW3def] at this
              rw [hW3def] at hm
              simp only at hm
              split at hm
              · exact absurd hm (by simp)
              · rename_i hW3ne
                split at hm
                · exact absurd hm (by simp)
                · rename_i T hTdef
                  injection hm with hm1
                  injection hm1 with h1 hm2
                  injection hm2 with h2 hm3
                  injection hm3 with h3 h4
                  subst h1; subst h2; subst h3; subst h4
                  obtain ⟨hSapp, hSshape⟩ := matchSpeed_shape hSdef
                  obtain ⟨⟨rT, hTapp⟩, hTshape⟩ := matchClock_shape hTdef
                  refine ⟨W1, W2, W3, rT, ?_, by simpa using hBne, hBsat,
                    by simpa using hW1ne, hW1sat, by simpa using hPne, hPsat,
                    by simpa using hW2ne, hW2sat, hSshape,
                    by simpa using hW3ne, hW3sat, hTshape⟩
                  rw [← hBapp, ← hW1app, ← hPapp, ← hW2app, hSapp, ← hW3app, hTapp]
                  simp
        · exact absurd hm (by simp)


theorem parseU8_le {l : List Char} {n : Nat} (h : parseU8 l = some n) : n ≤ 255 := by
  unfold parseU8 at h
  split at h
  · rename_i hcond
    injection h with h'
    subst h'
    exact hcond.2.2
  · exact absurd h (by simp)


theorem mergeLeftNil : ∀ xs : List StateMessage, Merge xs [] xs
  | [] => .nil
  | _ :: xs => .left (mergeLeftNil xs)

theorem Merge.countP_eq {xs ys zs : List StateMessage} (p : StateMessage → Bool)
    (h : Merge xs ys zs) : zs.countP p = xs.countP p + ys.countP p := by
  induction h with
  | nil => rfl
  | left h ih => simp [List.countP_cons, ih]; omega
  | right h ih => simp [List.countP_cons, ih]; omega

theorem Merge.filter_of_right {xs ys zs : List StateMessage} {p : StateMessage → Bool}
    (h : Merge xs ys zs) (hy : ∀ y ∈ ys, p y = false) : zs.filter p = xs.filter p := by
  induction h with
  | nil => rfl
  | left h ih =>
    simp only [List.filter_cons]
    rw [ih hy]
  | right h ih =>
    rename_i y _ _ _
    have hpy : p y = false := hy y (List.mem_cons_self _ _)
    simp only [List.filter_cons, hpy]
    exact ih (fun y' hy' => hy y' (List.mem_cons_of_mem _ hy'))

theorem Merge.filterMap_of_right {f : StateMessage → Option FloatVal} {xs ys zs : List StateMessage}
    (h : Merge xs ys zs) (hy : ∀ y ∈ ys, f y = none) : zs.filterMap f = xs.filterMap f := by
  induction h with
  | nil => rfl
  | left h ih =>
    simp only [List.filterMap_cons]
    rw [ih hy]
  | right h ih =>
    rename_i y _ _ _
    have hpy : f y = none := hy y (List.mem_cons_self _ _)
    simp only [List.filterMap_cons, hpy]
    exact ih (fun y' hy' => hy y' (List.mem_cons_of_mem _ hy'))

theorem mem_lineMsgs {fc c : Nat} {l : String} {m : StateMessage}
    (hm : m ∈ (lineMsgs fc c l).1) :
    (∃ tp p sp t b, m = .progress tp p sp t b) ∨ ∃ s, m = .nextFile s := by
  unfold lineMsgs at hm
  split at hm
  · rename_i pr hp
    split at hm
    · simp at hm
      rcases hm with hm | hm
      · exact .inl ⟨_, _, _, _, _, hm⟩
      · exact .inr ⟨_, hm⟩
    · simp at hm
      exact .inl ⟨_, _, _, _, _, hm⟩
  · split at hm
    · simp at hm
      exact .inr ⟨_, hm⟩
    · simp at hm


theorem mem_pumpLines {fc c : Nat} {ls : List String} {m : StateMessage}
    (hm : m ∈ pumpLines fc c ls) :
    isFinishedMsg m = false ∧ isErrorMsg m = false := by
  induction ls generalizing c with
  | nil => cases hm
  | cons l ls ih =>
    simp only [pumpLines, List.mem_append] at hm
    rcases hm with hm | hm
    · rcases mem_lineMsgs hm with ⟨_, _, _, _, _, rfl⟩ | ⟨_, rfl⟩ <;> exact ⟨rfl, rfl⟩
    · exact ih hm

theorem stdout_countP_finished (fc : Nat) (ls : List String) :
    (stdoutEvents fc ls).countP isFinishedMsg = 1 := by
  unfold stdoutEvents
  rw [List.countP_append]
  have h0 : (pumpLines fc 0 ls).countP isFinishedMsg = 0 :=
    List.countP_eq_zero.mpr (fun m hm => by simp [(mem_pumpLines hm).1])
  simp [h0, isFinishedMsg, List.countP_cons]

theorem stderr_countP_finished (es : List String) :
    (stderrEvents es).countP isFinishedMsg = 0 := by
  unfold stderrEvents
  refine List.countP_eq_zero.mpr ?_
  intro m hm
  simp only [List.mem_map] at hm
  obtain ⟨l, _, rfl⟩ := hm
  simp [isFinishedMsg]


theorem progressVals_append (a b : List StateMessage) :
    progressVals (a ++ b) = progressVals a ++ progressVals b :=
  List.filterMap_append a b _

theorem div_cast_le {a b n : Nat} (h : a ≤ b) :
    (a : ℚ) / (n : ℚ) ≤ (b : ℚ) / (n : ℚ) :=
  div_le_div_of_nonneg_right (by exact_mod_cast h) (Nat.cast_nonneg n)

theorem lineMsgs_vals (fc c : Nat) (l : String) :
    progressVals (lineMsgs fc c l).1 = [] ∨
    progressVals (lineMsgs fc c l).1 = [divF32 (wrap32 (c : Int)) fc] := by
  unfold lineMsgs
  split
  · split
    · right; simp [progressVals]
    · right; simp [progressVals]
  · split
    · left; simp [progressVals]
    · left; simp [progressVals]

theorem lineMsgs_le (fc c : Nat) (l : String) : c ≤ (lineMsgs fc c l).2 := by
  unfold lineMsgs
  split
  · split <;> simp
  · split <;> simp

theorem lineMsgs_le_succ (fc c : Nat) (l : String) :
    (lineMsgs fc c l).2 ≤ c + 1 := by
  unfold lineMsgs
  split
  · split <;> simp
  · split <;> simp

theorem wrap32_small {c : Nat} (hc : c < 2 ^ 31) : wrap32 (c : Int) = (c : Int) := by
  unfold wrap32
  have h1 : (0 : Int) ≤ (c : Int) + 2 ^ 31 := by positivity
  have h2 : (c : Int) + 2 ^ 31 < 2 ^ 32 := by
    have hc' : (c : Int) < 2 ^ 31 := by exact_mod_cast hc
    omega
  rw [Int.emod_eq_of_lt h1 h2]
  ring

theorem divF32_small {c fc : Nat} (hfc : fc ≠ 0) (hc : c < 2 ^ 31) :
    divF32 (wrap32 (c : Int)) fc = .finite ((c : ℚ) / (fc : ℚ)) := by
  rw [wrap32_small hc]
  unfold divF32
  rw [if_neg hfc]
  norm_num

theorem pump_chain (fc : Nat) (hfc : fc ≠ 0) : ∀ (ls : List String) (c : Nat),
    c + ls.length < 2 ^ 31 →
    List.Chain' (fun a b => fle a b = true) (progressVals (pumpLines fc c ls)) ∧
    ∀ v ∈ progressVals (pumpLines fc c ls),
      ∃ r : ℚ, v = .finite r ∧ (c : ℚ) / (fc : ℚ) ≤ r := by
  intro ls
  induction ls with
  | nil =>
    intro c hlen
    constructor
    · simp [pumpLines, progressVals]
    · intro v hv
      simp [pumpLines, progressVals] at hv
  | cons l ls ih =>
    intro c hlen
    have hc31 : c < 2 ^ 31 := by
      simp only [List.length_cons] at hlen
      omega
    have hc' : c ≤ (lineMsgs fc c l).2 := lineMsgs_le fc c l
    have hc'' : (lineMsgs fc c l).2 ≤ c + 1 := lineMsgs_le_succ fc c l
    have hlen' : (lineMsgs fc c l).2 + ls.length < 2 ^ 31 := by
      simp only [List.length_cons] at hlen
      omega
    obtain ⟨ihc, ihb⟩ := ih (lineMsgs fc c l).2 hlen'
    have hmono : (c : ℚ) / (fc : ℚ) ≤ (((lineMsgs fc c l).2 : ℚ)) / (fc : ℚ) :=
      div_cast_le hc'
    rw [show pumpLines fc c (l :: ls) =
        (lineMsgs fc c l).1 ++ pumpLines fc (lineMsgs fc c l).2 ls from rfl,
      progressVals_append]
    rcases lineMsgs_vals fc c l with hv | hv <;> rw [hv]
    · refine ⟨by simpa using ihc, ?_⟩
      intro v hvm
      simp only [List.nil_append] at hvm
      obtain ⟨r, rfl, hr⟩ := ihb v hvm
      exact ⟨r, rfl, le_trans hmono hr⟩
    · rw [divF32_small hfc hc31]
      constructor
      · refine List.chain'_cons'.mpr ⟨?_, ihc⟩
        intro b hb
        have hbmem : b ∈ progressVals (pumpLines fc (lineMsgs fc c l).2 ls) :=
          List.mem_of_mem_head? hb
        obtain ⟨r, rfl, hr⟩ := ihb b hbmem
        show fle (.finite ((c : ℚ) / (fc : ℚ))) (.finite r) = true
        exact decide_eq_true (le_trans hmono hr)
      · intro v hvm
        rcases List.mem_cons.mp hvm with rfl | hvm
        · exact ⟨_, rfl, le_refl _⟩
        · obtain ⟨r, rfl, hr⟩ := ihb v hvm
          exact ⟨r, rfl, le_trans hmono hr⟩


theorem lookupStat_cons (q : String × String) (a : List (String × String)) (k : String) :
    lookupStat (q :: a) k =
      if (q.1 == k) = true then some q.2 else lookupStat a k := by
  unfold lookupStat
  cases hq : (q.1 == k) <;> simp [List.find?, hq]

theorem lookupStat_append_some {a : List (String × String)} {k v : String}
    (m : List (String × String)) (h : lookupStat a k = some v) :
    lookupStat (a ++ m) k = some v := by
  induction a with
  | nil => simp [lookupStat] at h
  | cons q a ih =>
    rw [lookupStat_cons] at h
    rw [List.cons_append, lookupStat_cons]
    by_cases hq : (q.1 == k) = true
    · rw [if_pos hq] at h
      rw [if_pos hq]
      exact h
    · rw [if_neg hq] at h
      rw [if_neg hq]
      exact ih h

theorem lookupStat_append_none {a : List (String × String)} {k : String}
    (m : List (String × String)) (h : lookupStat a k = none) :
    lookupStat (a ++ m) k = lookupStat m k := by
  induction a with
  | nil => rfl
  | cons q a ih =>
    rw [lookupStat_cons] at h
    rw [List.cons_append, lookupStat_cons]
    by_cases hq : (q.1 == k) = true
    · rw [if_pos hq] at h
      exact absurd h (by simp)
    · rw [if_neg hq] at h
      rw [if_neg hq]
      exact ih h

theorem statsOfLines_untouched {k : String} : ∀ (ls : List String)
    (m : List (String × String)),
    (∀ l ∈ ls, lookupStat (lineInserts l) k = none) →
    lookupStat (ls.foldl statLine m) k = lookupStat m k := by
  intro ls
  induction ls with
  | nil => intro m _; rfl
  | cons l ls ih =>
    intro m hall
    have h1 : lookupStat (lineInserts l) k = none := hall l (List.mem_cons_self _ _)
    have := ih (statLine m l) (fun l2 h2 => hall l2 (List.mem_cons_of_mem _ h2))
    rw [List.foldl_cons, this]
    unfold statLine
    exact lookupStat_append_none m h1



/-! ## Claims -/

/-- C1, counterexample: the claim's example byte token uses comma
grouping ("1,234,567"), but the source pattern admits only digits and
dots in the bytes capture and strips dots, so the spec's example line
does not parse at all. -/
theorem progress_comma_grouping_no_match :
    parse_rsync_progress "1,234,567 50% 1MB/s 0:00:01" = none := by decide

/-- C1, amended: the progress parser is a pure total function (it is a
function of the line alone), and a bytes token grouped with the dot
separator the code strips parses to the correct integer:
"1.234.567" yields 1234567. -/
theorem progress_dot_grouping_parses :
    parse_rsync_progress "1.234.567 50% 1MB/s 0:00:01" =
      some { bytes_transferred := 1234567, percentage := 50,
             speed := "1MB/s", estimated_time := "0:00:01" } := by decide

/-- C2, counterexample: on the claim's exact input line the inner
number-of-files pattern (digits and dots only) fails on the
comma-grouped value, and the source then stores nothing at all, so the
resulting mapping is empty — no total, regular or directories entries. -/
theorem stats_comma_number_line_empty :
    parse_rsync_stats "Number of files: 1,234 (reg: 1,000, dir: 234)" = [] := by
  decide

/-- C2, amended: with the dot grouping the source actually parses, the
line yields the four derived keys with the captured strings verbatim,
and the links key is PRESENT with the empty-string value when the
optional link group is absent (the source inserts the defaulted
capture unconditionally). -/
theorem stats_dot_number_line_values :
    lookupStat (parse_rsync_stats "Number of files: 1.234 (reg: 1.000, dir: 234)")
        "Number of files (total)" = some "1.234" ∧
    lookupStat (parse_rsync_stats "Number of files: 1.234 (reg: 1.000, dir: 234)")
        "Number of files (regular)" = some "1.000" ∧
    lookupStat (parse_rsync_stats "Number of files: 1.234 (reg: 1.000, dir: 234)")
        "Number of files (directories)" = some "234" ∧
    lookupStat (parse_rsync_stats "Number of files: 1.234 (reg: 1.000, dir: 234)")
        "Number of files (links)" = some "" := by decide

/-- C3, counterexample: a dry run with a non-empty error stream that
lacks the permission signature does NOT stop the supervisor — the
source only returns inside the signature branch — so the real run is
still spawned. -/
theorem dry_run_plain_stderr_still_spawns :
    handleRunClick "Number of files: 5 (reg: 3, dir: 2)" "warning: something" =
      .spawned "warning: something\n" 3 := by decide

/-- C3, amended: when the dry-run error stream is non-empty AND contains
the permission signature, the supervisor surfaces the actionable
authentication diagnostic and stops without spawning; a non-empty error
stream without the signature is surfaced but the supervisor proceeds. -/
theorem dry_run_permission_denied_stops (out err : String)
    (h1 : (rsTrim err.data).isEmpty = false)
    (h2 : containsSub pdSig.data err.data = true) :
    handleRunClick out err = .stopped ((err ++ "\n") ++ (sshMsg ++ "\n")) := by
  unfold handleRunClick
  simp [h1, h2]

theorem dry_run_permission_denied_stops_witness :
    handleRunClick "x" "Permission denied (publickey)" =
      .stopped (("Permission denied (publickey)" ++ "\n") ++ (sshMsg ++ "\n")) :=
  dry_run_permission_denied_stops "x" "Permission denied (publickey)"
    (by decide) (by decide)

/-- C4, counterexample: the completion sentinel is sent when the OUTPUT
stream alone reaches end-of-stream, so a valid channel interleaving
delivers it before an error-stream event — the completion event is not
after both streams have closed. -/
theorem completion_before_stderr_close_possible :
    Merge (stdoutEvents 1 []) (stderrEvents ["late error"])
      [StateMessage.finished, StateMessage.error "late error"] ∧
    [StateMessage.finished, StateMessage.error "late error"].getLast? =
      some (StateMessage.error "late error") := by
  constructor
  · exact Merge.left (Merge.right Merge.nil)
  · decide

/-- C4, amended: in every interleaving exactly one completion event is
delivered, and it follows every output-stream event (it is the final
non-error event); error-stream events may still follow it, since the
sentinel is emitted on stdout end-of-stream only. -/
theorem completion_unique_after_stdout (fc : Nat) (ls es : List String)
    (m : List StateMessage)
    (h : Merge (stdoutEvents fc ls) (stderrEvents es) m) :
    m.countP isFinishedMsg = 1 ∧
    (m.filter (fun e => !isErrorMsg e)).getLast? = some .finished := by
  constructor
  · rw [h.countP_eq isFinishedMsg, stdout_countP_finished, stderr_countP_finished]
  · have hfil : m.filter (fun e => !isErrorMsg e) =
        (stdoutEvents fc ls).filter (fun e => !isErrorMsg e) := by
      refine h.filter_of_right ?_
      intro y hy
      simp only [stderrEvents, List.mem_map] at hy
      obtain ⟨l, _, rfl⟩ := hy
      simp [isErrorMsg]
    rw [hfil]
    unfold stdoutEvents
    rw [List.filter_append]
    simp [isErrorMsg]

theorem completion_unique_after_stdout_witness :
    ((stdoutEvents 1 ["100 50% 1MB/s 0:00:01"]).countP isFinishedMsg = 1) ∧
    (((stdoutEvents 1 ["100 50% 1MB/s 0:00:01"]).filter
        (fun e => !isErrorMsg e)).getLast? = some StateMessage.finished) :=
  completion_unique_after_stdout 1 ["100 50% 1MB/s 0:00:01"] []
    (stdoutEvents 1 ["100 50% 1MB/s 0:00:01"]) (mergeLeftNil _)

/-- C5, counterexample: the source pattern is anchored only at the
start, so a line with extra trailing tokens after the timestamp still
parses — "any deviation (extra tokens) yields no match" is false. -/
theorem progress_trailing_content_accepted :
    parse_rsync_progress "100 50% 1MB/s 0:00:01 extra" =
      some { bytes_transferred := 100, percentage := 50,
             speed := "1MB/s", estimated_time := "0:00:01" } := by decide

/-- C5, amended: the parser is total (a Lean function) and any line it
accepts decomposes per the start-anchored grammar — contrapositively,
every line deviating from that grammar (missing fields, malformed
timestamp, non-numeric runs) yields no match; trailing content after
the matched prefix is tolerated. -/
theorem progress_match_implies_shape (l : String) (r : RsyncProgress)
    (hm : parse_rsync_progress l = some r) : ProgressShape l := by
  unfold parse_rsync_progress at hm
  split at hm
  · exact absurd hm (by simp)
  · rename_i g1 g2 g3 g4 hmatch
    obtain ⟨w1, w2, w3, rest, hdec, h1, h2, h3, h4, h5, h6, h7, h8, h9, h10, h11, h12⟩ :=
      matchProgressLine_shape hmatch
    exact ⟨g1, w1, g2, w2, g3, w3, g4, rest, hdec, h1, h2, h3, h4, h5, h6,
      h7, h8, h9, h10, h11, h12⟩

theorem progress_match_implies_shape_witness :
    ProgressShape "2 3% 4A/b 1:00:00" :=
  progress_match_implies_shape "2 3% 4A/b 1:00:00"
    { bytes_transferred := 2, percentage := 3,
      speed := "4A/b", estimated_time := "1:00:00" } (by decide)

/-- C6, counterexample: a zero per-job total is reachable (a dry run
reporting zero regular files hands 0 to `run_rsync`), and there the
program's `f32` division makes the first progress value NaN (0/0) and,
after one file event, the next one positive infinity — a sequence that
is not non-decreasing under the IEEE order, in which NaN compares
false.  The interleaving exhibited is a valid merge of the two pumps. -/
theorem total_progress_not_monotone_zero_units :
    Merge (stdoutEvents 0 ["0 0% 1B/s 0:00:00", ">f x", "1 0% 1B/s 0:00:00"])
      (stderrEvents [])
      (stdoutEvents 0 ["0 0% 1B/s 0:00:00", ">f x", "1 0% 1B/s 0:00:00"]) ∧
    progressVals
        (stdoutEvents 0 ["0 0% 1B/s 0:00:00", ">f x", "1 0% 1B/s 0:00:00"]) =
      [FloatVal.nan, FloatVal.posInf] ∧
    ¬ List.Chain' (fun a b => fle a b = true)
      (progressVals
        (stdoutEvents 0 ["0 0% 1B/s 0:00:00", ">f x", "1 0% 1B/s 0:00:00"])) := by
  refine ⟨mergeLeftNil _, by decide, ?_⟩
  intro hch
  rw [show progressVals
        (stdoutEvents 0 ["0 0% 1B/s 0:00:00", ">f x", "1 0% 1B/s 0:00:00"]) =
      [FloatVal.nan, FloatVal.posInf] from by decide] at hch
  rw [List.chain'_cons] at hch
  exact absurd hch.1 (by decide)

/-- C6, amended: with a positive per-job total, and fewer lines than
the `i32` file counter can count without wrapping, the overall fraction
carried by successive progress events is non-decreasing under the IEEE
order for any interleaving with error-stream events, because the file
counter only increments; with a zero total the emitted values are NaN
and infinity and the invariant fails. -/
theorem total_progress_monotone (fc : Nat) (ls es : List String)
    (m : List StateMessage)
    (h : Merge (stdoutEvents fc ls) (stderrEvents es) m)
    (hfc : 0 < fc) (hlen : ls.length < 2 ^ 31) :
    List.Chain' (fun a b => fle a b = true) (progressVals m) := by
  have hval : progressVals m = progressVals (stdoutEvents fc ls) := by
    refine h.filterMap_of_right ?_
    intro y hy
    simp only [stderrEvents, List.mem_map] at hy
    obtain ⟨l, _, rfl⟩ := hy
    rfl
  rw [hval]
  unfold stdoutEvents
  rw [progressVals_append]
  have h0 : progressVals [StateMessage.finished] = [] := rfl
  rw [h0, List.append_nil]
  exact (pump_chain fc (by omega) ls 0 (by omega)).1

theorem total_progress_monotone_witness :
    List.Chain' (fun a b => fle a b = true) (progressVals (stdoutEvents 2
      ["100 10% 1MB/s 0:00:01", ">f a", "200 20% 1MB/s 0:00:02"])) :=
  total_progress_monotone 2
    ["100 10% 1MB/s 0:00:01", ">f a", "200 20% 1MB/s 0:00:02"] []
    (stdoutEvents 2 ["100 10% 1MB/s 0:00:01", ">f a", "200 20% 1MB/s 0:00:02"])
    (mergeLeftNil _) (by decide) (by decide)

/-- C8, counterexample: the payload extraction splits on the space
character only, so on a line whose name contains a tab the payload is
the whole line rather than the final whitespace-delimited token. -/
theorem file_event_payload_not_ws_token :
    isFileEventLine ">a\tb" = true ∧
    (lineMsgs 1 0 ">a\tb").1 = [StateMessage.nextFile ">a\tb"] ∧
    wsLastToken ">a\tb" = "b" ∧ (">a\tb" : String) ≠ "b" := by decide

/-- C8, amended: the classifier fires exactly when the first character
is the sent or received marker; on a match the payload is the final
token of a split on the SPACE character specifically, the counter
increments, and an empty payload leaves the snapshot log untouched. -/
theorem file_event_classifier_contract (line : String) (fc c : Nat)
    (s : AppSnapshot) :
    (isFileEventLine line = true ↔
      ∃ c0 rest, line.data = c0 :: rest ∧ (c0 = '>' ∨ c0 = '<')) ∧
    (isFileEventLine line = true →
      (lineMsgs fc c line).2 = c + 1 ∧
      StateMessage.nextFile (lastToken line) ∈ (lineMsgs fc c line).1) ∧
    (isFileEventLine line = false → (lineMsgs fc c line).2 = c) ∧
    applyMsg s (.nextFile "") = s := by
  refine ⟨?_, ?_, ?_, ?_⟩
  · unfold isFileEventLine
    cases hl : line.data with
    | nil => simp
    | cons c0 rest =>
      simp only [Bool.or_eq_true, decide_eq_true_eq]
      constructor
      · intro h
        exact ⟨c0, rest, rfl, h⟩
      · rintro ⟨c1, rest1, heq, h⟩
        injection heq with heq1 heq2
        subst heq1
        exact h
  · intro h
    cases hp : parse_rsync_progress line <;> simp [lineMsgs, h, hp]
  · intro h
    cases hp : parse_rsync_progress line <;> simp [lineMsgs, h, hp]
  · rfl

theorem file_event_classifier_contract_witness :
    (lineMsgs 3 1 ">f x").2 = 1 + 1 ∧
    StateMessage.nextFile (lastToken ">f x") ∈ (lineMsgs 3 1 ">f x").1 :=
  (file_event_classifier_contract ">f x" 3 1
    ⟨"", "", ⟨.finite 0, .finite 0, "", "", 0⟩, false⟩).2.1 (by decide)

/-- C9, counterexample: the percentage capture is parsed as `u8`, so a
line reporting 200 percent produces a record whose percentage exceeds
100. -/
theorem progress_percentage_can_exceed_100 :
    parse_rsync_progress "100 200% 1MB/s 0:00:01" =
      some { bytes_transferred := 100, percentage := 200,
             speed := "1MB/s", estimated_time := "0:00:01" } ∧
    ¬(200 ≤ 100) := by decide

/-- C9, amended: every record the parser produces has its percentage in
the `u8` range, at most 255 (the bound Rust's parse enforces), not 100. -/
theorem progress_percentage_le_255 (l : String) (r : RsyncProgress)
    (hm : parse_rsync_progress l = some r) : r.percentage ≤ 255 := by
  unfold parse_rsync_progress at hm
  split at hm
  · exact absurd hm (by simp)
  · rename_i g1 g2 g3 g4 hmatch
    split at hm
    · exact absurd hm (by simp)
    · rename_i bytes hbytes
      split at hm
      · exact absurd hm (by simp)
      · rename_i pct hpct
        injection hm with h'
        subst h'
        exact parseU8_le hpct

theorem progress_percentage_le_255_witness :
    ({ bytes_transferred := 1, percentage := 0, speed := "1B/s",
       estimated_time := "0:00:00" } : RsyncProgress).percentage ≤ 255 :=
  progress_percentage_le_255 "1 0% 1B/s 0:00:00"
    { bytes_transferred := 1, percentage := 0, speed := "1B/s",
      estimated_time := "0:00:00" } (by decide)

/-- C10: a later line's binding for a key shadows every earlier one —
the map holds the value from the last line that sets the key, provided
no following line touches it. -/
theorem stats_later_line_overwrites (ls1 : List String) (l : String)
    (ls2 : List String) (k v : String)
    (hl : lookupStat (lineInserts l) k = some v)
    (h2 : ∀ l2 ∈ ls2, lookupStat (lineInserts l2) k = none) :
    lookupStat (statsOfLines (ls1 ++ l :: ls2)) k = some v := by
  unfold statsOfLines
  rw [List.foldl_append, List.foldl_cons]
  rw [statsOfLines_untouched ls2 _ h2]
  unfold statLine
  exact lookupStat_append_some _ hl

theorem stats_later_line_overwrites_witness :
    lookupStat (statsOfLines (["Files: a"] ++ "Files: b" :: [])) "Files" =
      some "b" :=
  stats_later_line_overwrites ["Files: a"] "Files: b" [] "Files" "b"
    (by decide) (fun l2 h2 => absurd h2 (List.not_mem_nil l2))

end RSynced
